import Mathlib

/-!
# Verification of the PS1 flashcard algorithm (`src/algorithm.ts`)

This development shallowly embeds the five exported functions of
`src/algorithm.ts` — `toBucketSets`, `getBucketRange`, `practice`, `update`,
`getHint`, `computeProgress` — and proves / refutes the specification's claims
about them.

Modelling conventions:
* A `Flashcard` is an opaque value used as a set/map key; we model it as `Nat`
  (for `getHint`, which reads the prompt, we model the prompt separately as a
  `List Char`).
* A JavaScript `Map<number, Set<Flashcard>>` is modelled as an
  insertion-ordered association list `List (Nat × Finset Nat)` with unique
  keys (`keysNodup`); a JavaScript `Set` is a `Finset Nat`.
* `update` additionally gets a heap-level embedding (`updateHeap`) in which
  `Set` objects live in an explicit store addressed by references, because
  the source's `new Map(buckets)` is a *shallow* copy: the copied map shares
  its `Set` objects with the input, and the subsequent `delete`/`add` calls
  mutate those shared objects.  The pure embedding `update` models the
  *content* of the map returned by the source function.
-/

namespace PS1

/-- Modelled from the spec: `AnswerDifficulty` is declared in the repository's
`flashcards.ts`, which is not part of the provided sources; per §3 of the spec
a Difficulty is one of the three values Easy, Hard, Wrong. -/
inductive AnswerDifficulty : Type
  | Easy
  | Hard
  | Wrong
deriving DecidableEq, Repr

/-- A sparse bucket assignment: insertion-ordered association list from bucket
number to set of cards, mirroring the JavaScript `Map<number, Set<Flashcard>>`
(`BucketMap`). -/
abbrev BMap := List (Nat × Finset Nat)

/-- Lookup (`Map.get`) of a JavaScript map modelled as an association list: the value of
the first (unique, for genuine maps) entry with the given key. -/
def mapGet {β : Type} : List (Nat × β) → Nat → Option β
  | [], _ => none
  | p :: rest, k => if p.1 = k then some p.2 else mapGet rest k

/-- Key-membership test (`Map.has`) of a JavaScript map. -/
def hasKey {β : Type} (m : List (Nat × β)) (k : Nat) : Bool :=
  (mapGet m k).isSome

/-- A genuine JavaScript `Map` never has two entries with the same key. -/
def keysNodup {β : Type} (m : List (Nat × β)) : Prop :=
  (m.map Prod.fst).Nodup

/-- The §3 invariant: each card is in at most one bucket (sets of entries with
distinct bucket numbers are disjoint). -/
def AtMostOne (m : BMap) : Prop :=
  ∀ p ∈ m, ∀ q ∈ m, p.1 ≠ q.1 → p.2 ∩ q.2 = ∅

instance {β : Type} (m : List (Nat × β)) : Decidable (keysNodup m) := by
  unfold keysNodup
  infer_instance

instance (m : BMap) : Decidable (AtMostOne m) := by
  unfold AtMostOne
  infer_instance

/-- Total number of cards across all buckets of a sparse assignment. -/
def totalCards (m : BMap) : Nat :=
  (m.map (fun p => p.2.card)).sum

/-- The `weightedSum` accumulated by `computeProgress`:
`Σ_bucket count_in_bucket * (bucket * 20)`. -/
def weightedSum (m : BMap) : Nat :=
  (m.map (fun p => p.2.card * (p.1 * 20))).sum

/-- The maximum key `Math.max(...buckets.keys())` as used by `toBucketSets` (the fold starts at
0, which is harmless because keys are non-negative and the function is only
used on non-empty maps). -/
def maxKey (m : BMap) : Nat :=
  m.foldl (fun a p => max a p.1) 0

/-- Embedding of `toBucketSets` (src/algorithm.ts lines 21-32): empty map maps
to the empty array; otherwise an array of length `maxBucket + 1` whose entry
`i` is (a defensive copy of) the set the map assigns to bucket `i`, or the
fresh empty set the array was initialised with where the map has no entry. -/
def toBucketSets (m : BMap) : List (Finset Nat) :=
  if m.isEmpty then []
  else (List.range (maxKey m + 1)).map (fun i => (mapGet m i).getD ∅)

/-- The indexed union loop of `practice`: `forEach` over the (already
`slice`d) array with running index `b`, adding the cards of every bucket `b`
with `day % 2 ** b === 0`. -/
def dueUnion : List (Finset Nat) → Nat → Nat → Finset Nat
  | [], _, _ => ∅
  | s :: rest, day, b =>
    (if day % 2 ^ b = 0 then s else ∅) ∪ dueUnion rest day (b + 1)

/-- Embedding of `practice` (src/algorithm.ts lines 68-82):
`buckets.slice(0, 5)` then the indexed union loop starting at bucket 0. -/
def practice (buckets : List (Finset Nat)) (day : Nat) : Finset Nat :=
  dueUnion (buckets.take 5) day 0

/-- The `forEach` scan of `update` that locates the card's current bucket:
the accumulator ends up holding the *last* bucket (in map iteration order)
whose set contains the card, `none` if there is none. -/
def findCurrentBucket (m : BMap) (card : Nat) : Option Nat :=
  m.foldl (fun acc p => if card ∈ p.2 then some p.1 else acc) none

/-- The bucket transition rule of `update` (src/algorithm.ts lines 109-116):
Easy → `min(c+1, 5)`, Hard → `max(c-1, 0)`, Wrong → `0`. -/
def newBucketOf (c : Nat) : AnswerDifficulty → Nat
  | .Easy => min (c + 1) 5
  | .Hard => max (c - 1) 0
  | .Wrong => 0

/-- Replace the set stored at key `b` (if any) by `f` of it, leaving every
other entry alone; models an in-place `Set` operation on `map.get(b)`. -/
def modifyAt (m : BMap) (b : Nat) (f : Finset Nat → Finset Nat) : BMap :=
  m.map (fun p => if p.1 = b then (p.1, f p.2) else p)

/-- Content-level embedding of `update` (src/algorithm.ts lines 93-126): this
computes the key→set-content mapping of the `Map` the source function returns.
Scan for the current bucket; if absent return the input content unchanged;
otherwise delete the card from the current bucket's set, create an empty set
under the new bucket's key if that key is absent (appended at the end, as
`Map.set` does for fresh keys), and add the card to the new bucket's set.
(The aliasing behaviour of the source — the shallow `new Map(buckets)` — is
modelled separately by `updateHeap` below.) -/
def update (m : BMap) (card : Nat) (d : AnswerDifficulty) : BMap :=
  match findCurrentBucket m card with
  | none => m
  | some currentBucket =>
    let newBucket := newBucketOf currentBucket d
    let m1 := modifyAt m currentBucket (fun s => s.erase card)
    let m2 := if hasKey m1 newBucket then m1 else m1 ++ [(newBucket, ∅)]
    modifyAt m2 newBucket (fun s => insert card s)

/-- Embedding of `computeProgress` (src/algorithm.ts lines 158-170).  The
source sums `set.size` into `totalCards` and `set.size * (bucket * 20)` into
`weightedSum` over all entries and returns `Math.round(weightedSum /
totalCards)` when `totalCards > 0`, else `0`.  For naturals `w, t` with
`t > 0`, `Math.round(w / t)` (round half away from zero, here half up) equals
`(2 * w + t) / (2 * t)` in integer division; `computeProgress_round_eq`
below re-establishes the connection with `round` on `ℚ`.  The `history`
parameter is typed `any` in the source and never read; we model it as an
argument of arbitrary type. -/
def computeProgress {α : Type} (m : BMap) (history : α) : Nat :=
  let t := totalCards m
  let w := weightedSum m
  if 0 < t then (2 * w + t) / (2 * t) else 0

/-! ## Hint generator -/

/-- Whitespace as matched by the `\s` character class on the prompts we
consider (ASCII whitespace; `trim` uses the same class). -/
def isWs (c : Char) : Bool :=
  c = ' ' || c = '\t' || c = '\n' || c = '\r' || c = '\x0b' || c = '\x0c'

/-- The split `String.prototype.split(/\s+/)`: cut the string at each maximal run of
whitespace.  A leading run produces a leading empty token and a trailing run a
trailing empty token, exactly as in JavaScript.  `acc` is the current token
read so far (reversed); `skipping` is true while consuming a whitespace run
whose token has already been emitted. -/
def splitWsAux : List Char → List Char → Bool → List (List Char)
  | [], _, true => [[]]
  | [], acc, false => [acc.reverse]
  | c :: rest, acc, skipping =>
    if skipping then
      if isWs c then splitWsAux rest acc true
      else splitWsAux rest [c] false
    else
      if isWs c then acc.reverse :: splitWsAux rest [] true
      else splitWsAux rest (c :: acc) false

/-- The word list `card.front.split(/\s+/)` of a prompt. -/
def splitWs (s : List Char) : List (List Char) :=
  splitWsAux s [] false

/-- The `minLength` constant of `getHint`. -/
def minLength : Nat := 3

/-- The greedy word-accumulation loop of `getHint` (src/algorithm.ts lines
142-145): starting from the accumulated `hint`, for each word in order, break
if `hint.length + word.length > minLength * 2`; otherwise append the word,
preceded by a single space when `hint` is non-empty. -/
def hintLoop : List (List Char) → List Char → List Char
  | [], hint => hint
  | w :: rest, hint =>
    if hint.length + w.length > minLength * 2 then hint
    else hintLoop rest (hint ++ (if hint.isEmpty then [] else [' ']) ++ w)

/-- Embedding of `getHint` (src/algorithm.ts lines 135-148), as a function of
the card's prompt (`card.front`).  A blank prompt (empty after `trim`, i.e.
all characters whitespace) yields the fixed placeholder; otherwise the greedy
accumulation over the whitespace-split words is returned if it reaches
`minLength`, and the first `minLength` characters of the prompt otherwise. -/
def getHint (front : List Char) : List Char :=
  if front.all isWs then "No hint available".toList
  else
    let words := splitWs front
    let hint := hintLoop words []
    if minLength ≤ hint.length then hint else front.take minLength

/-- The 2-character prompt of the repository's own minimum-length test. -/
def promptHi : List Char := "Hi".toList

/-- A 7-character two-word prompt. -/
def promptAbcDef : List Char := "abc def".toList

/-- A 6-character two-word prompt. -/
def promptAbcDe : List Char := "abc de".toList

/-! ## Heap-level embedding of `update`

The source's `update` starts with `const newBuckets = new Map(buckets)` — a
*shallow* copy: the new map holds the very same `Set` objects as the caller's
map.  The subsequent `newBuckets.get(currentBucket)?.delete(card)` and
`newBuckets.get(newBucket)?.add(card)` therefore mutate `Set` objects that are
still reachable from the caller's input map.  To express this we model `Set`
objects as cells of an explicit store: a map value is a *reference* (a `Nat`)
into the store, and mutation writes a new value for that reference. -/

/-- A store of `Set` objects, addressed by references. -/
abbrev HeapT := List (Nat × Finset Nat)

/-- The current contents of the set object at reference `r` (an unallocated
reference reads as the empty set; all programs below only read allocated
references). -/
def heapGet (h : HeapT) (r : Nat) : Finset Nat :=
  (mapGet h r).getD ∅

/-- Overwrite the contents of the set object at reference `r` (in-place `Set`
mutation).  The new binding is consed on; `heapGet` sees the latest write. -/
def heapSet (h : HeapT) (r : Nat) (s : Finset Nat) : HeapT :=
  (r, s) :: h

/-- A `Map<number, Set<Flashcard>>` at the heap level: buckets map to
references of set objects. -/
abbrev MapRefs := List (Nat × Nat)

/-- The `forEach` scan of `update` locating the card's bucket, heap level. -/
def findCurrentBucketH (m : MapRefs) (h : HeapT) (card : Nat) : Option Nat :=
  m.foldl (fun acc p => if card ∈ heapGet h p.2 then some p.1 else acc) none

/-- Heap-level embedding of `update` (src/algorithm.ts lines 93-126).
`new Map(buckets)` copies the (bucket, set-reference) entries but not the set
objects; `delete` and `add` mutate the store.  `fresh` is a reference not in
use, consumed if `new Set()` is allocated for a previously absent bucket key.
Returns the new map together with the store as it stands after the call. -/
def updateHeap (m : MapRefs) (h : HeapT) (card : Nat) (d : AnswerDifficulty)
    (fresh : Nat) : MapRefs × HeapT :=
  let newBuckets := m
  match findCurrentBucketH newBuckets h card with
  | none => (newBuckets, h)
  | some currentBucket =>
    let newBucket := newBucketOf currentBucket d
    let h1 := match mapGet newBuckets currentBucket with
      | some r => heapSet h r ((heapGet h r).erase card)
      | none => h
    let step2 : MapRefs × HeapT :=
      if hasKey newBuckets newBucket then (newBuckets, h1)
      else (newBuckets ++ [(newBucket, fresh)], heapSet h1 fresh ∅)
    let h3 := match mapGet step2.1 newBucket with
      | some r => heapSet step2.2 r (insert card (heapGet step2.2 r))
      | none => step2.2
    (step2.1, h3)

/-- What the *caller* sees in their own input map at bucket `b` under store
`h`: the caller's map still holds its original references, so reading it after
the call goes through the post-call store. -/
def inputView (m : MapRefs) (h : HeapT) (b : Nat) : Option (Finset Nat) :=
  (mapGet m b).map (heapGet h)

/-! ## Lemmas about `practice` -/

lemma mem_dueUnion (x day : Nat) :
    ∀ (L : List (Finset Nat)) (b0 : Nat),
      x ∈ dueUnion L day b0 ↔
        ∃ i, i < L.length ∧ day % 2 ^ (b0 + i) = 0 ∧ x ∈ L.getD i ∅ := by
  intro L
  induction L with
  | nil => intro b0; simp [dueUnion]
  | cons s rest ih =>
    intro b0
    rw [dueUnion, Finset.mem_union, ih (b0 + 1)]
    constructor
    · rintro (hx | ⟨i, hi, hmod, hmem⟩)
      · by_cases h : day % 2 ^ b0 = 0
        · exact ⟨0, by simp, by simpa using h, by simpa [h] using hx⟩
        · simp [h] at hx
      · refine ⟨i + 1, by simpa using Nat.succ_lt_succ hi, ?_, by simpa using hmem⟩
        have : b0 + (i + 1) = b0 + 1 + i := by omega
        rw [this]; exact hmod
    · rintro ⟨i, hi, hmod, hmem⟩
      cases i with
      | zero =>
        left
        have h : day % 2 ^ b0 = 0 := by simpa using hmod
        simpa [h] using hmem
      | succ j =>
        right
        refine ⟨j, by simpa using Nat.lt_of_succ_lt_succ (by simpa using hi), ?_,
          by simpa using hmem⟩
        have : b0 + (j + 1) = b0 + 1 + j := by omega
        rw [this] at hmod; exact hmod

/-- C2: membership in `practice buckets day` is exactly membership in some
bucket `b ≤ 4` (present in the encoding; missing trailing buckets read as
empty) with `day % 2 ^ b = 0`.  In particular the result is precisely the
union of the due buckets among indices 0..4, and index 5 and beyond never
contribute, whatever the day. -/
theorem practice_membership (l : List (Finset Nat)) (day x : Nat) :
    x ∈ practice l day ↔ ∃ b, b ≤ 4 ∧ day % 2 ^ b = 0 ∧ x ∈ l.getD b ∅ := by
  rw [practice, mem_dueUnion]
  constructor
  · rintro ⟨i, hi, hmod, hmem⟩
    rw [List.length_take] at hi
    have hi5 : i < 5 := lt_of_lt_of_le hi (min_le_left _ _)
    have hil : i < l.length := lt_of_lt_of_le hi (min_le_right _ _)
    refine ⟨i, by omega, by simpa using hmod, ?_⟩
    rw [List.getD_eq_getElem?_getD, List.getElem?_take, if_pos hi5] at hmem
    rw [List.getD_eq_getElem?_getD]
    exact hmem
  · rintro ⟨b, hb, hmod, hmem⟩
    have hbl : b < l.length := by
      by_contra h
      push_neg at h
      rw [List.getD_eq_getElem?_getD, List.getElem?_eq_none (by omega)] at hmem
      simp at hmem
    refine ⟨b, ?_, by simpa using hmod, ?_⟩
    · rw [List.length_take]; omega
    · rw [List.getD_eq_getElem?_getD] at hmem
      rw [List.getD_eq_getElem?_getD, List.getElem?_take,
        if_pos (by omega : b < 5)]
      exact hmem

/-! ## Lemmas about association lists and `toBucketSets` -/

lemma le_foldl_max (m : BMap) : ∀ a : Nat, a ≤ m.foldl (fun acc p => max acc p.1) a := by
  induction m with
  | nil => intro a; exact le_rfl
  | cons q rest ih =>
    intro a
    exact le_trans (le_max_left a q.1) (ih (max a q.1))

lemma mem_le_foldl_max (m : BMap) :
    ∀ (a : Nat), ∀ p ∈ m, p.1 ≤ m.foldl (fun acc p => max acc p.1) a := by
  induction m with
  | nil => intro a p hp; cases hp
  | cons q rest ih =>
    intro a p hp
    rcases List.mem_cons.1 hp with h | h
    · subst h
      exact le_trans (le_max_right a p.1) (le_foldl_max rest _)
    · exact ih _ p h

lemma mem_le_maxKey (m : BMap) (p : Nat × Finset Nat) (hp : p ∈ m) :
    p.1 ≤ maxKey m :=
  mem_le_foldl_max m 0 p hp

lemma keysNodup_cons {β : Type} {q : Nat × β} {rest : List (Nat × β)} :
    keysNodup (q :: rest) ↔ q.1 ∉ rest.map Prod.fst ∧ keysNodup rest := by
  simp [keysNodup]

lemma mapGet_eq_some_of_mem {β : Type} :
    ∀ (m : List (Nat × β)), keysNodup m → ∀ {b : Nat} {s : β},
      (b, s) ∈ m → mapGet m b = some s := by
  intro m
  induction m with
  | nil => intro _ b s h; cases h
  | cons q rest ih =>
    intro hk b s h
    rcases keysNodup_cons.1 hk with ⟨hq, hrest⟩
    rcases List.mem_cons.1 h with h | h
    · rw [← h]
      simp [mapGet]
    · have hb : b ∈ rest.map Prod.fst := List.mem_map.2 ⟨(b, s), h, rfl⟩
      have hne : q.1 ≠ b := fun e => hq (e ▸ hb)
      simp only [mapGet, if_neg hne]
      exact ih hrest h

lemma mapGet_mem {β : Type} :
    ∀ (m : List (Nat × β)) {b : Nat} {s : β}, mapGet m b = some s → (b, s) ∈ m := by
  intro m
  induction m with
  | nil => intro b s h; cases h
  | cons q rest ih =>
    intro b s h
    by_cases hq : q.1 = b
    · simp only [mapGet, if_pos hq] at h
      exact List.mem_cons.2 (Or.inl (by cases q; cases h; cases hq; rfl))
    · simp only [mapGet, if_neg hq] at h
      exact List.mem_cons.2 (Or.inr (ih h))

lemma mapGet_isSome_of_mem {β : Type} :
    ∀ (m : List (Nat × β)) {b : Nat} {s : β}, (b, s) ∈ m → (mapGet m b).isSome := by
  intro m
  induction m with
  | nil => intro b s h; cases h
  | cons q rest ih =>
    intro b s h
    by_cases hq : q.1 = b
    · simp [mapGet, hq]
    · rcases List.mem_cons.1 h with h | h
      · exact absurd (by rw [← h]) hq
      · simp only [mapGet, if_neg hq]
        exact ih h

lemma range_map_getD {β : Type} [Inhabited β] (n i : Nat) (f : Nat → β) (d : β) :
    ((List.range n).map f).getD i d = if i < n then f i else d := by
  rw [List.getD_eq_getElem?_getD, List.getElem?_map]
  by_cases h : i < n
  · simp [List.getElem?_range, h]
  · rw [List.getElem?_eq_none (by simpa using Nat.le_of_not_lt h)]
    simp [h]

/-- C6: `toBucketSets` maps the empty assignment to the empty sequence and a
non-empty assignment to a sequence of length `maxKey + 1` whose entry `i` is
the set assigned to bucket `i`, the empty set where no entry exists; in
particular reading the dense encoding back at each sparse key reproduces the
original per-bucket sets exactly. -/
theorem toBucketSets_spec (m : BMap) (hk : keysNodup m) :
    (m = [] → toBucketSets m = []) ∧
    (m ≠ [] → (toBucketSets m).length = maxKey m + 1) ∧
    (∀ i < (toBucketSets m).length,
      (toBucketSets m).getD i ∅ = (mapGet m i).getD ∅) ∧
    (∀ p ∈ m, (toBucketSets m).getD p.1 ∅ = p.2) := by
  refine ⟨fun h => by simp [toBucketSets, h], fun h => ?_, fun i hi => ?_, fun p hp => ?_⟩
  · simp [toBucketSets, h]
  · rcases eq_or_ne m [] with h | h
    · simp [toBucketSets, h] at hi
    · have hne : m.isEmpty = false := by simpa [List.isEmpty_iff] using h
      simp only [toBucketSets, hne, Bool.false_eq_true, if_false] at hi ⊢
      rw [List.length_map, List.length_range] at hi
      rw [range_map_getD, if_pos hi]
  · have hne : m.isEmpty = false := by
      simpa [List.isEmpty_iff] using List.ne_nil_of_mem hp
    simp only [toBucketSets, hne, Bool.false_eq_true, if_false]
    rw [range_map_getD, if_pos (Nat.lt_succ_of_le (mem_le_maxKey m p hp)),
      mapGet_eq_some_of_mem m hk (by exact hp)]
    rfl

/-! ## Lemmas about `computeProgress` -/

lemma weightedSum_le_of_buckets_le (m : BMap) (hb : ∀ p ∈ m, p.1 ≤ 5) :
    weightedSum m ≤ 100 * totalCards m := by
  induction m with
  | nil => simp [weightedSum, totalCards]
  | cons q rest ih =>
    have hq : q.1 ≤ 5 := hb q (List.mem_cons_self _ _)
    have hrest := ih (fun p hp => hb p (List.mem_cons_of_mem _ hp))
    simp only [weightedSum, totalCards, List.map_cons, List.sum_cons] at *
    have : q.2.card * (q.1 * 20) ≤ q.2.card * 100 :=
      Nat.mul_le_mul_left _ (by omega)
    omega

lemma weightedSum_all_retired (m : BMap) (h5 : ∀ p ∈ m, p.2 ≠ ∅ → p.1 = 5) :
    weightedSum m = 100 * totalCards m := by
  induction m with
  | nil => simp [weightedSum, totalCards]
  | cons q rest ih =>
    have hrest := ih (fun p hp => h5 p (List.mem_cons_of_mem _ hp))
    simp only [weightedSum, totalCards, List.map_cons, List.sum_cons] at *
    rcases eq_or_ne q.2 ∅ with he | he
    · simp [he]; omega
    · rw [h5 q (List.mem_cons_self _ _) he]
      omega

lemma halfUp_div_eq_floor (w t : Nat) (ht : 0 < t) :
    (((2 * w + t) / (2 * t) : Nat) : ℤ) = ⌊((2 * w + t : Nat) : ℚ) / ((2 * t : Nat) : ℚ)⌋ := by
  have h2t : 0 < 2 * t := by omega
  set n := (2 * w + t) / (2 * t) with hn
  have hb : (0 : ℚ) < ((2 * t : Nat) : ℚ) := by exact_mod_cast h2t
  symm
  rw [Int.floor_eq_iff]
  constructor
  · rw [le_div_iff₀ hb]
    exact_mod_cast Nat.div_mul_le_self (2 * w + t) (2 * t)
  · rw [div_lt_iff₀ hb]
    have h := Nat.lt_div_mul_add (a := 2 * w + t) h2t
    have : 2 * w + t < (n + 1) * (2 * t) := by
      calc 2 * w + t < n * (2 * t) + 2 * t := h
        _ = (n + 1) * (2 * t) := by ring
    exact_mod_cast this

lemma halfUp_div_eq_round (w t : Nat) (ht : 0 < t) :
    (((2 * w + t) / (2 * t) : Nat) : ℤ) = round ((w : ℚ) / (t : ℚ)) := by
  have htq : ((t : ℚ)) ≠ 0 := by
    exact_mod_cast Nat.pos_iff_ne_zero.1 ht
  rw [round_eq, halfUp_div_eq_floor w t ht]
  congr 1
  push_cast
  field_simp
  ring

/-- C7: on any bucket structure whose bucket numbers are all ≤ 5,
`computeProgress` (with any `history` argument) returns
`round(weightedSum / totalCards)` — encoded over the naturals as
`(2*w + t) / (2*t)` and proved equal to `round` over `ℚ` — which is at most
100 (and, being a natural number, at least 0); it returns exactly 0 when the
total card count is zero, and exactly 100 when there is at least one card and
every non-empty bucket is bucket 5. -/
theorem computeProgress_spec {α : Type} (m : BMap) (history : α)
    (hb : ∀ p ∈ m, p.1 ≤ 5) :
    computeProgress m history ≤ 100 ∧
    (totalCards m = 0 → computeProgress m history = 0) ∧
    (0 < totalCards m → (∀ p ∈ m, p.2 ≠ ∅ → p.1 = 5) →
      computeProgress m history = 100) ∧
    (0 < totalCards m →
      (computeProgress m history : ℤ) =
        round ((weightedSum m : ℚ) / (totalCards m : ℚ))) := by
  set t := totalCards m with htdef
  set w := weightedSum m with hwdef
  refine ⟨?_, ?_, ?_, ?_⟩
  · rcases Nat.eq_zero_or_pos t with h | h
    · simp [computeProgress, ← htdef, h]
    · have hw : w ≤ 100 * t := weightedSum_le_of_buckets_le m hb
      have h2t : 0 < 2 * t := by omega
      have : (2 * w + t) / (2 * t) < 101 := by
        rw [Nat.div_lt_iff_lt_mul h2t]
        omega
      simp only [computeProgress, ← htdef, ← hwdef, if_pos h]
      omega
  · intro h
    simp [computeProgress, ← htdef, h]
  · intro h h5
    have hw : w = 100 * t := weightedSum_all_retired m h5
    simp only [computeProgress, ← htdef, ← hwdef, if_pos h]
    have hdm := Nat.div_add_mod (2 * w + t) (2 * t)
    have hmlt := Nat.mod_lt (2 * w + t) (by omega : 0 < 2 * t)
    -- (200t + t) / (2t) = 100 because 2t * 100 ≤ 201t < 2t * 101
    have h1 : (2 * w + t) / (2 * t) ≤ 100 := by
      rw [Nat.div_le_iff_le_mul_add_pred (by omega : 0 < 2 * t)]
      omega
    have h2 : 100 ≤ (2 * w + t) / (2 * t) := by
      rw [Nat.le_div_iff_mul_le (by omega : 0 < 2 * t)]
      omega
    omega
  · intro h
    simp only [computeProgress, ← htdef, ← hwdef, if_pos h]
    exact halfUp_div_eq_round w t h

/-! ## Lemmas about `update` -/

lemma atMostOne_eq {m : BMap} (hao : AtMostOne m) {b1 b2 x : Nat}
    {s1 s2 : Finset Nat} (h1 : (b1, s1) ∈ m) (h2 : (b2, s2) ∈ m)
    (hx1 : x ∈ s1) (hx2 : x ∈ s2) : b1 = b2 := by
  by_contra h
  have hd := hao (b1, s1) h1 (b2, s2) h2 h
  have : x ∈ s1 ∩ s2 := Finset.mem_inter.2 ⟨hx1, hx2⟩
  rw [hd] at this
  exact absurd this (Finset.not_mem_empty x)

lemma foldl_find_cases (card : Nat) :
    ∀ (m : BMap) (acc : Option Nat),
      (List.foldl (fun a p => if card ∈ p.2 then some p.1 else a) acc m = acc ∧
        ∀ p ∈ m, card ∉ p.2) ∨
      (∃ c s, List.foldl (fun a p => if card ∈ p.2 then some p.1 else a) acc m = some c ∧
        (c, s) ∈ m ∧ card ∈ s) := by
  intro m
  induction m with
  | nil => intro acc; exact Or.inl ⟨rfl, by simp⟩
  | cons q rest ih =>
    intro acc
    rw [List.foldl_cons]
    rcases ih (if card ∈ q.2 then some q.1 else acc) with ⟨heq, hall⟩ | ⟨c, s, heq, hmem, hs⟩
    · by_cases hq : card ∈ q.2
      · refine Or.inr ⟨q.1, q.2, ?_, List.mem_cons_self _ _, hq⟩
        rw [heq, if_pos hq]
      · refine Or.inl ⟨by rw [heq, if_neg hq], ?_⟩
        intro p hp
        rcases List.mem_cons.1 hp with h | h
        · rw [h]; exact hq
        · exact hall p h
    · exact Or.inr ⟨c, s, heq, List.mem_cons_of_mem _ hmem, hs⟩

lemma findCurrentBucket_none_iff (m : BMap) (card : Nat) :
    findCurrentBucket m card = none ↔ ∀ p ∈ m, card ∉ p.2 := by
  constructor
  · intro h
    rcases foldl_find_cases card m none with ⟨_, hall⟩ | ⟨c, s, heq, _, _⟩
    · exact hall
    · rw [findCurrentBucket] at h
      rw [h] at heq
      cases heq
  · intro hall
    rcases foldl_find_cases card m none with ⟨heq, _⟩ | ⟨c, s, _, hmem, hs⟩
    · exact heq
    · exact absurd hs (hall _ hmem)

lemma findCurrentBucket_some_mem {m : BMap} {card c : Nat}
    (h : findCurrentBucket m card = some c) : ∃ s, (c, s) ∈ m ∧ card ∈ s := by
  rcases foldl_find_cases card m none with ⟨heq, _⟩ | ⟨c', s, heq, hmem, hs⟩
  · rw [findCurrentBucket] at h; rw [h] at heq; cases heq
  · rw [findCurrentBucket] at h
    rw [h] at heq
    cases heq
    exact ⟨s, hmem, hs⟩

lemma findCurrentBucket_unique {m : BMap} (hao : AtMostOne m) {b card : Nat}
    {s : Finset Nat} (hmem : (b, s) ∈ m) (hs : card ∈ s) :
    findCurrentBucket m card = some b := by
  rcases foldl_find_cases card m none with ⟨_, hall⟩ | ⟨c', s', heq, hmem', hs'⟩
  · exact absurd hs (hall _ hmem)
  · rw [findCurrentBucket, heq]
    exact congrArg some (atMostOne_eq hao hmem' hmem hs' hs)

lemma keys_modifyAt (m : BMap) (b : Nat) (f : Finset Nat → Finset Nat) :
    (modifyAt m b f).map Prod.fst = m.map Prod.fst := by
  rw [modifyAt, List.map_map]
  apply List.map_congr_left
  intro p _
  by_cases h : p.1 = b <;> simp [h]

lemma mapGet_modifyAt (m : BMap) (b0 b : Nat) (f : Finset Nat → Finset Nat) :
    mapGet (modifyAt m b0 f) b =
      if b0 = b then (mapGet m b).map f else mapGet m b := by
  induction m with
  | nil => by_cases h : b0 = b <;> simp [modifyAt, mapGet, h]
  | cons q rest ih =>
    rw [modifyAt, List.map_cons]
    by_cases hq : q.1 = b
    · by_cases h0 : q.1 = b0
      · have : b0 = b := h0 ▸ hq
        simp [mapGet, modifyAt, h0, hq, this]
      · have hne : ¬ b = b0 := fun e => h0 (hq.trans e)
        have hne' : ¬ b0 = b := fun e => hne e.symm
        simp [mapGet, modifyAt, h0, hq, hne, hne']
    · by_cases h0 : q.1 = b0
      · simp only [if_pos h0, mapGet, if_neg hq]
        rw [← modifyAt, ih]
      · simp only [if_neg h0, mapGet, if_neg hq]
        rw [← modifyAt, ih]

lemma modifyAt_of_no_key (m : BMap) (b : Nat) (f : Finset Nat → Finset Nat)
    (h : ∀ q ∈ m, q.1 ≠ b) : modifyAt m b f = m := by
  rw [modifyAt]
  conv_rhs => rw [← List.map_id m]
  apply List.map_congr_left
  intro p hp
  simp [h p hp]

lemma totalCards_append (m : BMap) (q : Nat × Finset Nat) :
    totalCards (m ++ [q]) = totalCards m + q.2.card := by
  simp [totalCards]

lemma totalCards_modifyAt (m : BMap) (b : Nat) (s : Finset Nat)
    (f : Finset Nat → Finset Nat) (hk : keysNodup m) (hmem : (b, s) ∈ m) :
    totalCards (modifyAt m b f) + s.card = totalCards m + (f s).card := by
  induction m with
  | nil => cases hmem
  | cons q rest ih =>
    rcases keysNodup_cons.1 hk with ⟨hq, hrest⟩
    rcases List.mem_cons.1 hmem with h | h
    · have hqb : q.1 = b := by rw [← h]
      have hq2 : q.2 = s := by rw [← h]
      have hnok : ∀ r ∈ rest, r.1 ≠ b := by
        intro r hr e
        exact hq (hqb ▸ e ▸ List.mem_map.2 ⟨r, hr, rfl⟩)
      rw [modifyAt, List.map_cons, if_pos hqb, ← modifyAt,
        modifyAt_of_no_key rest b f hnok]
      simp only [totalCards, List.map_cons, List.sum_cons, hq2]
      omega
    · have hb : b ∈ rest.map Prod.fst := List.mem_map.2 ⟨(b, s), h, rfl⟩
      have hqb : ¬ q.1 = b := fun e => hq (e ▸ hb)
      rw [modifyAt, List.map_cons, if_neg hqb, ← modifyAt]
      simp only [totalCards, List.map_cons, List.sum_cons]
      have := ih hrest h
      simp only [totalCards] at this
      omega

lemma mapGet_append_left {β : Type} :
    ∀ (m l : List (Nat × β)) (b : Nat), (mapGet m b).isSome →
      mapGet (m ++ l) b = mapGet m b := by
  intro m
  induction m with
  | nil => intro l b h; simp [mapGet] at h
  | cons q rest ih =>
    intro l b h
    by_cases hq : q.1 = b
    · simp [mapGet, hq]
    · rw [List.cons_append, mapGet, if_neg hq]
      rw [mapGet, if_neg hq] at h ⊢
      exact ih l b h

lemma mapGet_append_right {β : Type} :
    ∀ (m l : List (Nat × β)) (b : Nat), mapGet m b = none →
      mapGet (m ++ l) b = mapGet l b := by
  intro m
  induction m with
  | nil => intro l b _; rfl
  | cons q rest ih =>
    intro l b h
    by_cases hq : q.1 = b
    · rw [mapGet, if_pos hq] at h; cases h
    · rw [mapGet, if_neg hq] at h
      rw [List.cons_append, mapGet, if_neg hq]
      exact ih l b h

lemma update_of_not_found {m : BMap} {card : Nat} (d : AnswerDifficulty)
    (h : findCurrentBucket m card = none) : update m card d = m := by
  simp only [update, h]

/-- Everything `update` guarantees when the card is found in bucket `c` of a
well-formed assignment: the result is a well-formed assignment satisfying the
one-bucket-per-card invariant, the total card count is conserved, and the card
now sits in bucket `newBucketOf c d`. -/
lemma update_master {m : BMap} {card c : Nat}
    (hk : keysNodup m) (hao : AtMostOne m)
    (hc : findCurrentBucket m card = some c) (d : AnswerDifficulty) :
    keysNodup (update m card d) ∧
    AtMostOne (update m card d) ∧
    totalCards (update m card d) = totalCards m ∧
    findCurrentBucket (update m card d) card = some (newBucketOf c d) := by
  obtain ⟨sc, hscmem, hsc⟩ := findCurrentBucket_some_mem hc
  set nb := newBucketOf c d with hnb
  set M1 := modifyAt m c (fun s => s.erase card) with hM1
  set M2 := if hasKey M1 nb then M1 else M1 ++ [(nb, ∅)] with hM2
  have hupd : update m card d = modifyAt M2 nb (fun s => insert card s) := by
    rw [hM2, hM1, hnb]
    simp only [update, hc]
  have hkeys1 : M1.map Prod.fst = m.map Prod.fst := keys_modifyAt m c _
  have hk1 : keysNodup M1 := by rw [keysNodup, hkeys1]; exact hk
  have hmgc : mapGet m c = some sc := mapGet_eq_some_of_mem m hk hscmem
  have hmg1 : ∀ b, mapGet M1 b =
      if c = b then some (sc.erase card) else mapGet m b := by
    intro b
    rw [hM1, mapGet_modifyAt]
    by_cases h : c = b
    · rw [if_pos h, if_pos h, ← h, hmgc]; rfl
    · rw [if_neg h, if_neg h]
  have hM2cases : (M2 = M1 ∧ (mapGet M1 nb).isSome) ∨
      (M2 = M1 ++ [(nb, ∅)] ∧ mapGet M1 nb = none) := by
    by_cases hkey : hasKey M1 nb = true
    · exact Or.inl ⟨by rw [hM2, if_pos hkey], by rwa [hasKey] at hkey⟩
    · refine Or.inr ⟨by rw [hM2, if_neg hkey], ?_⟩
      have : ¬ (mapGet M1 nb).isSome = true := by simpa [hasKey] using hkey
      exact Option.not_isSome_iff_eq_none.1 this
  have hnbM1 : mapGet M1 nb = none → nb ∉ M1.map Prod.fst := by
    intro hnone hmemk
    obtain ⟨q, hq, hq1⟩ := List.mem_map.1 hmemk
    have : (nb, q.2) ∈ M1 := by
      have : q = (nb, q.2) := by rw [← hq1]
      rwa [this] at hq
    have := mapGet_isSome_of_mem M1 this
    rw [hnone] at this
    cases this
  have hk2 : keysNodup M2 := by
    rcases hM2cases with ⟨he, _⟩ | ⟨he, hnone⟩
    · rw [he]; exact hk1
    · rw [he, keysNodup, List.map_append]
      rw [List.nodup_append]
      refine ⟨hk1, List.nodup_singleton _, ?_⟩
      intro a ha hb
      simp only [List.map_cons, List.map_nil, List.mem_singleton] at hb
      exact hnbM1 hnone (hb ▸ ha)
  have hmg2nb : ∃ t, mapGet M2 nb = some t ∧ card ∉ t := by
    rcases hM2cases with ⟨he, hsome⟩ | ⟨he, hnone⟩
    · rw [he]
      by_cases hcnb : c = nb
      · refine ⟨sc.erase card, ?_, Finset.not_mem_erase card sc⟩
        rw [hmg1 nb, if_pos hcnb]
      · obtain ⟨t, ht⟩ := Option.isSome_iff_exists.1 hsome
        refine ⟨t, ht, ?_⟩
        intro hcard
        have htm : mapGet m nb = some t := by
          rw [hmg1 nb, if_neg hcnb] at ht
          exact ht
        have : (nb, t) ∈ m := mapGet_mem m htm
        exact hcnb (atMostOne_eq hao hscmem this hsc hcard)
    · refine ⟨∅, ?_, Finset.not_mem_empty card⟩
      rw [he, mapGet_append_right M1 _ nb hnone, mapGet, if_pos rfl]
  obtain ⟨t0, hmg2, hct0⟩ := hmg2nb
  have hres_nb : mapGet (update m card d) nb = some (insert card t0) := by
    rw [hupd, mapGet_modifyAt, if_pos rfl, hmg2]
    rfl
  have hkres : keysNodup (update m card d) := by
    rw [hupd, keysNodup, keys_modifyAt]
    exact hk2
  -- conservation of the total card count
  have htc1 : totalCards M1 + sc.card = totalCards m + (sc.erase card).card :=
    totalCards_modifyAt m c sc _ hk hscmem
  have htc2 : totalCards M2 = totalCards M1 := by
    rcases hM2cases with ⟨he, _⟩ | ⟨he, _⟩
    · rw [he]
    · rw [he, totalCards_append]
      simp
  have hmem2 : (nb, t0) ∈ M2 := mapGet_mem M2 hmg2
  have htc3 : totalCards (update m card d) + t0.card =
      totalCards M2 + (insert card t0).card := by
    rw [hupd]
    exact totalCards_modifyAt M2 nb t0 _ hk2 hmem2
  have hcarderase : (sc.erase card).card + 1 = sc.card :=
    Finset.card_erase_add_one hsc
  have hcardinsert : (insert card t0).card = t0.card + 1 :=
    Finset.card_insert_of_not_mem hct0
  have htcres : totalCards (update m card d) = totalCards m := by omega
  -- membership characterisation of the result
  have hchar : ∀ p ∈ update m card d, ∀ x ∈ p.2,
      (x = card → p.1 = nb) ∧ (x ≠ card → ∃ s, (p.1, s) ∈ m ∧ x ∈ s) := by
    intro p hp x hx
    rw [hupd, modifyAt] at hp
    obtain ⟨q, hq2, hpq⟩ := List.mem_map.1 hp
    have hqM : q ∈ M1 ∨ q = (nb, ∅) := by
      rcases hM2cases with ⟨he, _⟩ | ⟨he, _⟩
      · rw [he] at hq2; exact Or.inl hq2
      · rw [he] at hq2
        rcases List.mem_append.1 hq2 with h | h
        · exact Or.inl h
        · exact Or.inr (by simpa using h)
    rcases hqM with hqM | hqM
    · rw [hM1, modifyAt] at hqM
      obtain ⟨r, hr, hqr⟩ := List.mem_map.1 hqM
      by_cases hrc : r.1 = c <;> by_cases hrnb : r.1 = nb
      · -- c = nb = r.1 : erase then insert back in the same set
        rw [if_pos hrc] at hqr
        rw [← hqr] at hpq
        rw [if_pos hrnb] at hpq
        rw [← hpq] at hx ⊢
        refine ⟨fun _ => hrnb, fun hxc => ⟨r.2, ?_, ?_⟩⟩
        · simpa using hr
        · rcases Finset.mem_insert.1 hx with h | h
          · exact absurd h hxc
          · exact Finset.mem_of_mem_erase h
      · -- r.1 = c ≠ nb : the card is erased here and not re-inserted
        rw [if_pos hrc] at hqr
        rw [← hqr] at hpq
        rw [if_neg hrnb] at hpq
        rw [← hpq] at hx ⊢
        refine ⟨fun hxc => ?_, fun hxc => ⟨r.2, by simpa using hr, ?_⟩⟩
        · exact absurd (hxc ▸ hx) (Finset.not_mem_erase card r.2)
        · exact Finset.mem_of_mem_erase hx
      · -- r.1 = nb ≠ c : the card is inserted here
        rw [if_neg hrc] at hqr
        rw [← hqr] at hpq
        rw [if_pos hrnb] at hpq
        rw [← hpq] at hx ⊢
        refine ⟨fun _ => hrnb, fun hxc => ⟨r.2, by simpa using hr, ?_⟩⟩
        rcases Finset.mem_insert.1 hx with h | h
        · exact absurd h hxc
        · exact h
      · -- untouched entry
        rw [if_neg hrc] at hqr
        rw [← hqr] at hpq
        rw [if_neg hrnb] at hpq
        rw [← hpq] at hx ⊢
        refine ⟨fun hxc => ?_, fun hxc => ⟨r.2, by simpa using hr, hx⟩⟩
        have hr' : (r.1, r.2) ∈ m := by simpa using hr
        exact absurd (atMostOne_eq hao hr' hscmem (hxc ▸ hx) hsc) hrc
    · rw [hqM] at hpq
      rw [if_pos rfl] at hpq
      rw [← hpq] at hx ⊢
      refine ⟨fun _ => rfl, fun hxc => ?_⟩
      rcases Finset.mem_insert.1 hx with h | h
      · exact absurd h hxc
      · exact absurd h (Finset.not_mem_empty x)
  have haores : AtMostOne (update m card d) := by
    intro p hp q hq hne
    rw [Finset.eq_empty_iff_forall_not_mem]
    intro x hx
    rw [Finset.mem_inter] at hx
    obtain ⟨hxp, hxq⟩ := hx
    by_cases hxc : x = card
    · exact hne (((hchar p hp x hxp).1 hxc).trans (((hchar q hq x hxq).1 hxc).symm))
    · obtain ⟨s1, h1, hx1⟩ := (hchar p hp x hxp).2 hxc
      obtain ⟨s2, h2, hx2⟩ := (hchar q hq x hxq).2 hxc
      exact hne (atMostOne_eq hao h1 h2 hx1 hx2)
  have hfres : findCurrentBucket (update m card d) card = some nb := by
    have hmemres : (nb, insert card t0) ∈ update m card d :=
      mapGet_mem _ hres_nb
    exact findCurrentBucket_unique haores hmemres (Finset.mem_insert_self card t0)
  exact ⟨hkres, haores, htcres, hfres⟩

/-- Repeated updates with a difficulty whose transition fixes bucket `b` keep
the card in bucket `b`. -/
lemma update_iterate_fixed (d : AnswerDifficulty) (b card : Nat)
    (hfix : newBucketOf b d = b) :
    ∀ (n : Nat) (m : BMap), keysNodup m → AtMostOne m →
      findCurrentBucket m card = some b →
      findCurrentBucket ((fun mm => update mm card d)^[n] m) card = some b := by
  intro n
  induction n with
  | zero => intro m _ _ h; simpa using h
  | succ k ih =>
    intro m hk hao h
    rw [Function.iterate_succ_apply]
    obtain ⟨h1, h2, _, h4⟩ := update_master hk hao h d
    rw [hfix] at h4
    exact ih _ h1 h2 h4

/-- Length invariant of the accumulation loop: a step is only taken when
`hint.length + word.length ≤ 6`, and it adds at most one separator character,
so the loop never grows the accumulator beyond 7 characters (unless it started
above that, in which case it can only return the start value). -/
lemma hintLoop_length_le :
    ∀ (ws : List (List Char)) (hint : List Char),
      (hintLoop ws hint).length ≤ max hint.length (minLength * 2 + 1) := by
  intro ws
  induction ws with
  | nil => intro hint; exact le_max_left _ _
  | cons w rest ih =>
    intro hint
    rw [hintLoop]
    by_cases h : hint.length + w.length > minLength * 2
    · rw [if_pos h]; exact le_max_left _ _
    · rw [if_neg h]
      refine le_trans (ih _) (max_le ?_ (le_max_right _ _))
      have hlen : (hint ++ (if hint.isEmpty then [] else [' ']) ++ w).length ≤
          minLength * 2 + 1 := by
        by_cases he : hint.isEmpty
        · simp only [he, if_pos]
          simp only [List.length_append, List.length_nil]
          omega
        · simp only [he, if_neg, Bool.false_eq_true, not_false_iff]
          simp only [List.length_append, List.length_cons, List.length_nil]
          omega
      exact le_trans hlen (le_max_right _ _)

/-! ## Claim theorems -/

/-- C1: the claim states that `update` never mutates the input map nor any
card set contained in it.  It is false of the code: `new Map(buckets)` is a
shallow copy sharing the caller's `Set` objects, and the subsequent
`delete`/`add` mutate them.  Concretely, for the input assignment
`{1 ↦ {7}}` (bucket 1 holds card 7, the set object being reference 0 of the
store) and difficulty Hard, after the call the caller's own map reads back
`∅` at bucket 1, where before the call it read `{7}`: the caller's snapshot
has been destroyed. -/
theorem update_mutates_callers_set :
    inputView [(1, 0)] (updateHeap [(1, 0)] [(0, ({7} : Finset Nat))] 7 .Hard 1).2 1
      = some ∅ ∧
    inputView [(1, 0)] [(0, ({7} : Finset Nat))] 1 = some {7} := by
  decide

/-- C3 (counterexample): the claim says that for the dense encoding
`[{X}, {Y}]` `practice` returns `{X}` on day 0, `{X, Y}` on day 1 and `{X}`
on day 2.  Instantiating `X := 0, Y := 1`, the code returns `{0, 1}` on day 0
(since `0 % 2 === 0`, bucket 1 is also due), `{0}` on day 1 and `{0, 1}` on
day 2 — the claim is false on every one of the three days. -/
theorem practice_day_scenario_cex :
    ¬ (practice [({0} : Finset Nat), {1}] 0 = {0} ∧
       practice [({0} : Finset Nat), {1}] 1 = {0, 1} ∧
       practice [({0} : Finset Nat), {1}] 2 = {0}) := by
  decide

/-- C3 (amended): for the dense encoding with bucket 0 = `{X}` and bucket 1 =
`{Y}`, `practice` returns `{X, Y}` on day 0, `{X}` on day 1 and `{X, Y}` on
day 2, following the implemented rule `day % 2 ** bucket === 0`. -/
theorem practice_day_scenario_actual (X Y : Nat) :
    practice [{X}, {Y}] 0 = {X, Y} ∧
    practice [{X}, {Y}] 1 = {X} ∧
    practice [{X}, {Y}] 2 = {X, Y} := by
  refine ⟨?_, ?_, ?_⟩ <;>
    simp [practice, dueUnion, Finset.insert_eq]

/-- C9: the claim states that for every non-blank prompt `getHint` returns at
least 3 characters.  The code breaks this for prompts shorter than 3
characters: on the prompt `"Hi"` — the input of the repository's own test
"returns at least 3 characters" — both the accumulated hint and the fallback
`front.slice(0, 3)` are `"Hi"`, so the call returns a 2-character string and
the repository's test fails. -/
theorem getHint_short_prompt_below_min :
    promptHi.all isWs = false ∧
    getHint promptHi = promptHi ∧ promptHi.length = 2 := by
  decide

/-- C10: `computeProgress` never reads its `history` parameter, so any two
calls on the same bucket structure with arbitrary histories (of arbitrary
types, hence also empty or absent ones) return equal results. -/
theorem computeProgress_ignores_history {α β : Type} (m : BMap)
    (h₁ : α) (h₂ : β) :
    computeProgress m h₁ = computeProgress m h₂ :=
  rfl

/-- C8 (counterexample): the claim says the accumulation check counts the
prospective word *and its separating space* against the ceiling 6, so an
accumulated hint that is returned has length ≤ 6.  The code's check
`hint.length + word.length > minLength * 2` omits the separator: on prompt
`"abc def"` it accepts `"def"` (3 + 3 = 6 ≤ 6) and returns the accumulated
hint `"abc def"` of length 7. -/
theorem getHint_ceiling_cex :
    getHint promptAbcDef = hintLoop (splitWs promptAbcDef) [] ∧
    getHint promptAbcDef = promptAbcDef ∧
    promptAbcDef.length = 7 := by
  decide

/-- C4: for a card located in bucket `c` of a well-formed sparse assignment,
`update` places it in `min(c+1, 5)` on Easy, `max(c-1, 0)` on Hard and `0` on
Wrong; moreover repeated Easy updates starting at bucket 5 always leave the
card in bucket 5, and repeated Hard updates starting at bucket 0 always leave
it in bucket 0. -/
theorem update_transition_rule (m : BMap) (card c : Nat)
    (hk : keysNodup m) (hao : AtMostOne m)
    (hc : findCurrentBucket m card = some c) :
    findCurrentBucket (update m card .Easy) card = some (min (c + 1) 5) ∧
    findCurrentBucket (update m card .Hard) card = some (max (c - 1) 0) ∧
    findCurrentBucket (update m card .Wrong) card = some 0 ∧
    (c = 5 → ∀ n,
      findCurrentBucket ((fun mm => update mm card .Easy)^[n] m) card = some 5) ∧
    (c = 0 → ∀ n,
      findCurrentBucket ((fun mm => update mm card .Hard)^[n] m) card = some 0) := by
  refine ⟨(update_master hk hao hc .Easy).2.2.2,
    (update_master hk hao hc .Hard).2.2.2,
    (update_master hk hao hc .Wrong).2.2.2, ?_, ?_⟩
  · intro h5 n
    exact update_iterate_fixed .Easy 5 card (by decide) n m hk hao (h5 ▸ hc)
  · intro h0 n
    exact update_iterate_fixed .Hard 0 card (by decide) n m hk hao (h0 ▸ hc)

/-- Witness for `update_transition_rule` at the assignment `{5 ↦ {3}}` and
card 3. -/
theorem update_transition_rule_witness :
    (keysNodup [(5, ({3} : Finset Nat))] ∧
      AtMostOne [(5, ({3} : Finset Nat))] ∧
      findCurrentBucket [(5, ({3} : Finset Nat))] 3 = some 5) ∧
    (findCurrentBucket (update [(5, ({3} : Finset Nat))] 3 .Easy) 3 =
        some (min (5 + 1) 5) ∧
      findCurrentBucket (update [(5, ({3} : Finset Nat))] 3 .Hard) 3 =
        some (max (5 - 1) 0) ∧
      findCurrentBucket (update [(5, ({3} : Finset Nat))] 3 .Wrong) 3 = some 0 ∧
      (5 = 5 → ∀ n,
        findCurrentBucket ((fun mm => update mm 3 .Easy)^[n]
          [(5, ({3} : Finset Nat))]) 3 = some 5) ∧
      (5 = 0 → ∀ n,
        findCurrentBucket ((fun mm => update mm 3 .Hard)^[n]
          [(5, ({3} : Finset Nat))]) 3 = some 0)) :=
  ⟨⟨by decide, by decide, by decide⟩,
    update_transition_rule [(5, ({3} : Finset Nat))] 3 5
      (by decide) (by decide) (by decide)⟩

/-- C5: for a well-formed sparse assignment satisfying the
one-bucket-per-card invariant, `update` returns an assignment that is again
well formed and satisfies the invariant, with the same total number of cards
across all buckets; when the card is in no bucket the result equals the
input. -/
theorem update_preserves_invariant_and_count (m : BMap) (card : Nat)
    (d : AnswerDifficulty) (hk : keysNodup m) (hao : AtMostOne m) :
    keysNodup (update m card d) ∧
    AtMostOne (update m card d) ∧
    totalCards (update m card d) = totalCards m ∧
    (findCurrentBucket m card = none → update m card d = m) := by
  cases h : findCurrentBucket m card with
  | none =>
    rw [update_of_not_found d h]
    exact ⟨hk, hao, rfl, fun _ => rfl⟩
  | some c =>
    obtain ⟨h1, h2, h3, _⟩ := update_master hk hao h d
    exact ⟨h1, h2, h3, fun hn => absurd hn (by simp [h])⟩

/-- Witness for `update_preserves_invariant_and_count` at the assignment
`{0 ↦ ∅, 1 ↦ {7}}`, card 7, difficulty Hard. -/
theorem update_preserves_invariant_and_count_witness :
    (keysNodup [(0, (∅ : Finset Nat)), (1, {7})] ∧
      AtMostOne [(0, (∅ : Finset Nat)), (1, {7})]) ∧
    (keysNodup (update [(0, (∅ : Finset Nat)), (1, {7})] 7 .Hard) ∧
      AtMostOne (update [(0, (∅ : Finset Nat)), (1, {7})] 7 .Hard) ∧
      totalCards (update [(0, (∅ : Finset Nat)), (1, {7})] 7 .Hard) =
        totalCards [(0, (∅ : Finset Nat)), (1, {7})] ∧
      (findCurrentBucket [(0, (∅ : Finset Nat)), (1, {7})] 7 = none →
        update [(0, (∅ : Finset Nat)), (1, {7})] 7 .Hard =
          [(0, (∅ : Finset Nat)), (1, {7})])) :=
  ⟨⟨by decide, by decide⟩,
    update_preserves_invariant_and_count [(0, (∅ : Finset Nat)), (1, {7})] 7
      .Hard (by decide) (by decide)⟩

/-- Witness for `toBucketSets_spec` at the assignment `{0 ↦ {1}, 2 ↦ {2,3}}`
(the spec's concrete scenario 1). -/
theorem toBucketSets_spec_witness :
    keysNodup [(0, ({1} : Finset Nat)), (2, {2, 3})] ∧
    ((([(0, ({1} : Finset Nat)), (2, {2, 3})] : BMap) = [] →
        toBucketSets [(0, ({1} : Finset Nat)), (2, {2, 3})] = []) ∧
      (([(0, ({1} : Finset Nat)), (2, {2, 3})] : BMap) ≠ [] →
        (toBucketSets [(0, ({1} : Finset Nat)), (2, {2, 3})]).length =
          maxKey [(0, ({1} : Finset Nat)), (2, {2, 3})] + 1) ∧
      (∀ i < (toBucketSets [(0, ({1} : Finset Nat)), (2, {2, 3})]).length,
        (toBucketSets [(0, ({1} : Finset Nat)), (2, {2, 3})]).getD i ∅ =
          (mapGet [(0, ({1} : Finset Nat)), (2, {2, 3})] i).getD ∅) ∧
      (∀ p ∈ ([(0, ({1} : Finset Nat)), (2, {2, 3})] : BMap),
        (toBucketSets [(0, ({1} : Finset Nat)), (2, {2, 3})]).getD p.1 ∅ =
          p.2)) :=
  ⟨by decide, toBucketSets_spec [(0, ({1} : Finset Nat)), (2, {2, 3})]
    (by decide)⟩

/-- Witness for `computeProgress_spec` at the assignment
`{0 ↦ {1}, 2 ↦ {2}, 5 ↦ {3}}` (the spec's concrete scenario 5, whose value is
47) with an empty history list. -/
theorem computeProgress_spec_witness :
    (∀ p ∈ ([(0, ({1} : Finset Nat)), (2, {2}), (5, {3})] : BMap), p.1 ≤ 5) ∧
    computeProgress [(0, ({1} : Finset Nat)), (2, {2}), (5, {3})]
      ([] : List Nat) = 47 ∧
    (computeProgress [(0, ({1} : Finset Nat)), (2, {2}), (5, {3})]
        ([] : List Nat) ≤ 100 ∧
      (totalCards [(0, ({1} : Finset Nat)), (2, {2}), (5, {3})] = 0 →
        computeProgress [(0, ({1} : Finset Nat)), (2, {2}), (5, {3})]
          ([] : List Nat) = 0) ∧
      (0 < totalCards [(0, ({1} : Finset Nat)), (2, {2}), (5, {3})] →
        (∀ p ∈ ([(0, ({1} : Finset Nat)), (2, {2}), (5, {3})] : BMap),
          p.2 ≠ ∅ → p.1 = 5) →
        computeProgress [(0, ({1} : Finset Nat)), (2, {2}), (5, {3})]
          ([] : List Nat) = 100) ∧
      (0 < totalCards [(0, ({1} : Finset Nat)), (2, {2}), (5, {3})] →
        (computeProgress [(0, ({1} : Finset Nat)), (2, {2}), (5, {3})]
            ([] : List Nat) : ℤ) =
          round ((weightedSum [(0, ({1} : Finset Nat)), (2, {2}), (5, {3})] : ℚ) /
            (totalCards [(0, ({1} : Finset Nat)), (2, {2}), (5, {3})] : ℚ)))) :=
  ⟨by decide, by decide,
    computeProgress_spec [(0, ({1} : Finset Nat)), (2, {2}), (5, {3})]
      ([] : List Nat) (by decide)⟩

/-- C8 (amended): the loop stops before adding a word as soon as the current
accumulation plus the word — *not* counting the separating space — would
exceed `minLength * 2 = 6` characters; consequently the accumulated hint never
exceeds 7 characters, and whenever `getHint` returns the accumulated hint
(rather than the fallback prefix) that hint's length is at most 7. -/
theorem getHint_ceiling (front : List Char) (hblank : front.all isWs = false) :
    (∀ (w : List Char) (rest : List (List Char)) (hint : List Char),
      minLength * 2 < hint.length + w.length → hintLoop (w :: rest) hint = hint) ∧
    (hintLoop (splitWs front) []).length ≤ 7 ∧
    (minLength ≤ (hintLoop (splitWs front) []).length →
      getHint front = hintLoop (splitWs front) [] ∧
      (getHint front).length ≤ 7) := by
  have hle : (hintLoop (splitWs front) []).length ≤ 7 := by
    have := hintLoop_length_le (splitWs front) []
    simpa [minLength] using this
  refine ⟨fun w rest hint h => ?_, hle, fun hmin => ?_⟩
  · rw [hintLoop, if_pos h]
  · constructor
    · rw [getHint, if_neg (by simp [hblank]), if_pos hmin]
    · rw [getHint, if_neg (by simp [hblank]), if_pos hmin]
      exact hle

/-- Witness for `getHint_ceiling` at the prompt `"abc de"`, on which the loop
accumulates both words and returns a 6-character hint. -/
theorem getHint_ceiling_witness :
    (promptAbcDe.all isWs = false) ∧
    ((∀ (w : List Char) (rest : List (List Char)) (hint : List Char),
        minLength * 2 < hint.length + w.length →
        hintLoop (w :: rest) hint = hint) ∧
      (hintLoop (splitWs promptAbcDe) []).length ≤ 7 ∧
      (minLength ≤ (hintLoop (splitWs promptAbcDe) []).length →
        getHint promptAbcDe = hintLoop (splitWs promptAbcDe) [] ∧
        (getHint promptAbcDe).length ≤ 7)) :=
  ⟨by decide, getHint_ceiling promptAbcDe (by decide)⟩

end PS1
